import Mathlib

/-!
Shallow embedding of the Aho-Corasick automaton implemented in
`src/automaton.cpp` (class `ac::Automaton`), together with theorems that
settle the specification claims about it.

The arena of nodes (`std::vector<NodePtr> nodes`) is modelled as a
`List Node`; `NodePtr` values are modelled by arena indices, which the C++
code keeps equal to the `node_id` field (nodes are only ever created via
`push_back` with `node_id = nodes.size()`).  `std::unordered_map` edge maps
are modelled as association lists in insertion order; the C++ code only adds
a key when it is absent, so the key sets are identical.
-/

set_option maxRecDepth 8000

namespace ACA

/-- Modelled from the spec: class `Node` (node.h / node.cpp are not part of
src/).  Per spec section 3 a node carries a stable integer id, the depth used
for match offsets (root is -1), a payload `value` (empty string means no
pattern ends here), the outgoing edges `outs` (token to child), and the
output set `matches` of nodes whose patterns are recognized at this state.
Edges and output members are stored as arena indices. -/
structure Node where
  node_id : Nat
  depth : Int
  value : String
  outs : List (String × Nat)
  outputs : List Nat
deriving DecidableEq

/-- Modelled from the spec: struct `Match` (match.h is not part of src/): a
reported occurrence `(start, end, value)` with exclusive end offset.  `end`
is a Lean keyword, so the exclusive end offset is named `stop`. -/
structure Match where
  start : Int
  stop : Int
  value : String
deriving DecidableEq

/-- The node used as the out-of-range default of arena lookups (the C++ code
never indexes out of range on the states the theorems quantify over). -/
def dummyNode : Node := ⟨0, -1, "", [], []⟩

/-- Arena lookup: `nodes[i]`. -/
def nth (ns : List Node) (i : Nat) : Node := ns.getD i dummyNode

/-- `Node::get_outnode(elem)`: look up the outgoing edge labelled `e` of the
node stored at arena slot `i`. -/
def lookupOut (ns : List Node) (i : Nat) (e : String) : Option Nat :=
  ((nth ns i).outs.find? (fun pr => pr.1 == e)).map (fun pr => pr.2)

/-- State of `ac::Automaton`: the node arena, the failure table (array of
node ids indexed by node id), the token alphabet, and the freshness flag
`uptodate`. -/
structure Automaton where
  nodes : List Node
  fail_table : List Nat
  alphabet : List String
  uptodate : Bool
deriving DecidableEq

/-- `Automaton::Automaton()`: freshness flag false, arena holds the root
node `Node(0, -1)`. -/
def Automaton.init : Automaton :=
  { nodes := [⟨0, -1, "", [], []⟩], fail_table := [], alphabet := [],
    uptodate := false }

/-- The trie walk of `Automaton::add`: walk the pattern from slot `s`
(pattern position `d`), following existing edges and creating missing nodes
`Node(nodes.size(), depth)`; returns the new arena, the new alphabet and the
slot of the pattern's terminal node. -/
def addLoop : List Node → List String → Nat → Nat → List String →
    List Node × List String × Nat
  | ns, al, s, _, [] => (ns, al, s)
  | ns, al, s, d, e :: rest =>
    let al' := if al.contains e then al else al ++ [e]
    match lookupOut ns s e with
    | some c => addLoop ns al' c (d + 1) rest
    | none =>
      let newId := ns.length
      let cur := nth ns s
      let ns' := ns.set s { cur with outs := cur.outs ++ [(e, newId)] } ++
        [{ node_id := newId, depth := (d : Int), value := "", outs := [],
           outputs := [] }]
      addLoop ns' al' newId (d + 1) rest

/-- `Automaton::add(pattern, value)`: walk/extend the trie from the root,
then `set_value`, `add_match(self)` and clear the freshness flag.
Modelled from the spec: `Node::add_match` (node.cpp not in src/) adds a node
to the `outputs` set by identity, so re-adding an already present node is a
no-op. -/
def Automaton.add (A : Automaton) (pattern : List String) (value : String) :
    Automaton :=
  let r := addLoop A.nodes A.alphabet 0 0 pattern
  let m := r.2.2
  let term := nth r.1 m
  let term' := { term with
    value := value,
    outputs := if term.outputs.contains m then term.outputs
      else term.outputs ++ [m] }
  { nodes := r.1.set m term', fail_table := A.fail_table, alphabet := r.2.1,
    uptodate := false }

/-- The read-only trie walk of `Automaton::find_node`, from slot `s`. -/
def findN (ns : List Node) : Nat → List String → Option Nat
  | s, [] => some s
  | s, e :: rest =>
    match lookupOut ns s e with
    | some c => findN ns c rest
    | none => none

/-- `Automaton::find_node(prefix)`: the node reached from the root, if any. -/
def Automaton.find_node (A : Automaton) (pre : List String) : Option Nat :=
  findN A.nodes 0 pre

/-- `Automaton::has_pattern(pattern)`: a node exists and its value is
non-empty. -/
def Automaton.has_pattern (A : Automaton) (pattern : List String) : Bool :=
  match A.find_node pattern with
  | some j => (nth A.nodes j).value != ""
  | none => false

/-- `Automaton::has_prefix(prefix)`: returns `!node`, i.e. true exactly when
`find_node` found nothing. -/
def Automaton.has_prefix (A : Automaton) (pre : List String) : Bool :=
  (A.find_node pre).isNone

/-- `Automaton::get_value(pattern)`: the terminal value, or the empty string
when the node is absent. -/
def Automaton.get_value (A : Automaton) (pattern : List String) : String :=
  match A.find_node pattern with
  | some j => (nth A.nodes j).value
  | none => ""

/-- `Automaton::goto_node(node_id, elem)`: follow a real edge when present;
at the root fall back to the root itself; elsewhere report no transition. -/
def gotoN (ns : List Node) (nid : Nat) (e : String) : Option Nat :=
  match lookupOut ns nid e with
  | some c => some c
  | none => if nid == 0 then some 0 else none

/-- Method form of `goto_node`. -/
def Automaton.goto_node (A : Automaton) (nid : Nat) (e : String) :
    Option Nat :=
  gotoN A.nodes nid e

/-- The failure-chain walk shared by construction step 3b and the scanner:
`while (goto_node(f, elem) == NULL) f = fail_table[f];` returning the final
`f`.  The C++ loop is unbounded; here it is given explicit fuel, and theorem
`c8_failure_chain_terminates` shows that fuel `nodes.length + 1` always
suffices on well-formed automata, so the two agree there. -/
def chaseFail (ns : List Node) (T : List Nat) : Nat → Nat → String →
    Option Nat
  | 0, _, _ => none
  | fuel + 1, f, e =>
    match gotoN ns f e with
    | some _ => some f
    | none => chaseFail ns T fuel (T.getD f 0) e

/-- The body of the BFS loop of `Automaton::update_automaton` for one
dequeued node `u`: for each outgoing edge `(e, dest)` of `u`, enqueue
`dest`, resolve the failure chain from `fail_table[u]`, store the resulting
failure target, and append the failure target's `matches` onto `dest`'s
`matches` (the `std::copy` / `back_inserter` step). -/
def processEdges (u : Nat) : List (String × Nat) →
    List Node × List Nat × List Nat → List Node × List Nat × List Nat
  | [], st => st
  | (e, dest) :: rest, (ns, T, Q) =>
    let Q' := Q ++ [dest]
    let f := (chaseFail ns T (ns.length + 1) (T.getD u 0) e).getD 0
    let fz := (gotoN ns f e).getD 0
    let T' := T.set dest fz
    let failnode := nth ns fz
    let destnode := nth ns dest
    let ns' := ns.set dest
      { destnode with outputs := destnode.outputs ++ failnode.outputs }
    processEdges u rest (ns', T', Q')

/-- The BFS queue loop of `Automaton::update_automaton`.  The C++ loop runs
until the deque is empty; on trie-shaped arenas every non-root node is
enqueued at most once, so fuel `nodes.length` (with which it is called)
covers every iteration. -/
def bfsLoop : Nat → List Node → List Nat → List Nat → List Node × List Nat
  | 0, ns, T, _ => (ns, T)
  | _ + 1, ns, T, [] => (ns, T)
  | fuel + 1, ns, T, u :: Q =>
    let st := processEdges u (nth ns u).outs (ns, T, Q)
    bfsLoop fuel st.1 st.2.1 st.2.2

/-- `Automaton::update_automaton()`: zero-initialize a fresh failure table,
seed the queue with the root's children, run the BFS, store the new failure
table and set the freshness flag. -/
def Automaton.update_automaton (A : Automaton) : Automaton :=
  let T0 := List.replicate A.nodes.length 0
  let Q0 := (nth A.nodes 0).outs.map (fun pr => pr.2)
  let r := bfsLoop A.nodes.length A.nodes T0 Q0
  { nodes := r.1, fail_table := r.2, alphabet := A.alphabet,
    uptodate := true }

/-- The scanning loop of `Automaton::get_matches`: at input position `idx`
in state `nid`, follow failure links until a transition for the current
token exists, take it, and if the resulting node's value is non-empty emit
one match `(idx - depth, idx + 1, value)` per member of its output set. -/
def scanGo (ns : List Node) (T : List Nat) : Nat → Nat → List String →
    List Match
  | _, _, [] => []
  | nid, idx, e :: rest =>
    let f := (chaseFail ns T (ns.length + 1) nid e).getD 0
    let cur := (gotoN ns f e).getD 0
    let node := nth ns cur
    let here :=
      if node.value != "" then
        node.outputs.map (fun r =>
          let rn := nth ns r
          { start := (idx : Int) - rn.depth, stop := (idx : Int) + 1,
            value := rn.value })
      else []
    here ++ scanGo ns T cur (idx + 1) rest

/-- Modelled from the spec: `remove_overlaps` (match.h / match.cpp are not
part of src/).  Spec section 4.3 leaves the exact policy open and recommends
the documented rule adopted here: sort the matches by end position ascending
and greedily keep a match only if its start is at or after the end of the
last kept match. -/
def insertByStop (m : Match) : List Match → List Match
  | [] => [m]
  | x :: xs => if m.stop ≤ x.stop then m :: x :: xs else x :: insertByStop m xs

/-- Insertion sort of matches by end position (part of the spec-modelled
overlap-removal policy). -/
def sortByStop : List Match → List Match
  | [] => []
  | x :: xs => insertByStop x (sortByStop xs)

/-- Greedy left-to-right selection of non-overlapping matches (part of the
spec-modelled overlap-removal policy). -/
def greedyKeep : Option Int → List Match → List Match
  | _, [] => []
  | none, x :: xs => x :: greedyKeep (some x.stop) xs
  | some lastStop, x :: xs =>
    if lastStop ≤ x.start then x :: greedyKeep (some x.stop) xs
    else greedyKeep (some lastStop) xs

/-- Spec-modelled overlap removal: sort by end, then keep greedily. -/
def remove_overlaps (ms : List Match) : List Match :=
  greedyKeep none (sortByStop ms)

/-- `Automaton::get_matches(text, exclude_overlaps)`: rebuild lazily when
the automaton is stale, scan the text once from the root, and optionally
filter overlaps.  The C++ method mutates `this` (the lazy rebuild); the
returned pair carries the post-call automaton state alongside the match
list. -/
def Automaton.get_matches (A : Automaton) (text : List String)
    (exclude_overlaps : Bool) : Automaton × List Match :=
  let A' := if A.uptodate then A else A.update_automaton
  let ms := scanGo A'.nodes A'.fail_table 0 0 text
  (A', if exclude_overlaps then remove_overlaps ms else ms)

end ACA

namespace ACA

/-- The automaton with patterns `"b" ↦ "B"` and `"abd" ↦ "A"` (tokenized as
characters), used to exhibit the dropped-match defect of the scanner. -/
def exMissed : Automaton :=
  (Automaton.init.add ["b"] "B").add ["a", "b", "d"] "A"

/-- The automaton with patterns `"a" ↦ "1"` and `"ba" ↦ "2"`, used to
exhibit the output-duplication defect of repeated builds. -/
def exDup : Automaton :=
  (Automaton.init.add ["a"] "1").add ["b", "a"] "2"

/-- C1: the claim says `match(text, false)` reports every occurrence of
every inserted pattern with a non-empty value.  The code evaluates the
output set only when the current node's own `value` is non-empty
(`if (node->value != "")` in `get_matches`), so inherited outputs at a
valueless node are dropped: with patterns `"b" ↦ "B"` and `"abd" ↦ "A"`,
scanning the text `"ab"` ends at the valueless node for prefix `"ab"`,
whose output set contains the terminal of `"b"`, yet no match at all is
reported even though `"b"` occupies positions `[1, 2)`. -/
theorem c1_missed_occurrence :
    exMissed.has_pattern ["b"] = true ∧
    (exMissed.get_matches ["a", "b"] false).2 = [] := by decide

/-- C2: the claim says `build()` is idempotent.  `update_automaton` appends
the failure target's outputs onto each node's outputs without clearing what
a previous build already appended, so building twice differs from building
once: with patterns `"a" ↦ "1"` and `"ba" ↦ "2"`, the node of `"ba"`
(arena slot 3) has outputs `[3, 1]` after one build and `[3, 1, 1]` after
two, even though the recomputed failure table is identical. -/
theorem c2_rebuild_not_idempotent :
    exDup.update_automaton.update_automaton.fail_table =
      exDup.update_automaton.fail_table ∧
    (nth exDup.update_automaton.nodes 3).outputs = [3, 1] ∧
    (nth exDup.update_automaton.update_automaton.nodes 3).outputs =
      [3, 1, 1] := by decide

/-- C3: the claim says each node's outputs collection is a set by node
identity (every node occurs in it at most once).  After two builds of the
automaton with patterns `"a" ↦ "1"` and `"ba" ↦ "2"`, the node of `"ba"`
has outputs `[3, 1, 1]`: the terminal of `"a"` occurs twice, and the
duplicate is observable as a doubled match report after a lazy rebuild. -/
theorem c3_outputs_duplicated :
    ¬ (nth exDup.update_automaton.update_automaton.nodes 3).outputs.Nodup ∧
    ((((exDup.get_matches ["b", "a"] false).1.add ["c"] "3").get_matches
      ["b", "a"] false).2) =
      [⟨0, 2, "2"⟩, ⟨1, 2, "1"⟩, ⟨1, 2, "1"⟩] := by decide

/-- C4: every insertion clears the freshness flag, and matching on a stale
automaton first rebuilds: `get_matches` on a stale automaton returns
exactly what it returns on the explicitly rebuilt automaton (same match
list and same post-call state), so no result is ever computed from a
failure table or outputs state older than the last insertion. -/
theorem c4_lazy_rebuild (A : Automaton) (p : List String) (v : String)
    (t : List String) (ex : Bool) :
    (A.add p v).uptodate = false ∧
    (A.uptodate = false →
      A.get_matches t ex = (A.update_automaton).get_matches t ex) := by
  constructor
  · rfl
  · intro h
    simp [Automaton.get_matches, h, Automaton.update_automaton]

/-- Witness for `c4_lazy_rebuild` at a concrete stale automaton. -/
theorem c4_lazy_rebuild_witness :
    (Automaton.init.add ["a"] "x").uptodate = false ∧
    Automaton.init.get_matches ["a"] false =
      (Automaton.init.update_automaton).get_matches ["a"] false :=
  ⟨(c4_lazy_rebuild Automaton.init ["a"] "x" ["a"] false).1,
   (c4_lazy_rebuild Automaton.init ["a"] "x" ["a"] false).2 rfl⟩

/-- C6: `has_prefix` has the inverted semantics the spec describes: it
returns true exactly when no node is reached by following the prefix from
the root, i.e. when `find_node` is absent. -/
theorem c6_has_prefix_inverted (A : Automaton) (pre : List String) :
    A.has_prefix pre = true ↔ A.find_node pre = none := by
  simp [Automaton.has_prefix, Option.isNone_iff_eq_none]

/-- C9: matching is deterministic and idempotent as an observation: calling
`get_matches` again on the automaton returned by a first call, with the
same text and the same overlap flag and no insertions in between, returns
the identical match list. -/
theorem c9_match_idempotent (A : Automaton) (t : List String) (ex : Bool) :
    ((A.get_matches t ex).1.get_matches t ex).2 = (A.get_matches t ex).2 := by
  by_cases h : A.uptodate
  · simp [Automaton.get_matches, h]
  · simp [Automaton.get_matches, h, Automaton.update_automaton]

end ACA

namespace ACA

theorem nth_nil (i : Nat) : nth [] i = dummyNode := by
  cases i <;> rfl

theorem nth_oob {ns : List Node} {i : Nat} (h : ns.length ≤ i) :
    nth ns i = dummyNode := by
  simp [nth, List.getD_eq_getElem?_getD, List.getElem?_eq_none h]

theorem nth_lt {ns : List Node} {i : Nat} (h : i < ns.length) :
    nth ns i = ns.get ⟨i, h⟩ := by
  simp [nth, List.getD_eq_getElem?_getD, List.getElem?_eq_getElem h]

theorem nth_set_self {ns : List Node} {i : Nat} {x : Node}
    (h : i < ns.length) : nth (ns.set i x) i = x := by
  simp [nth, List.getD_eq_getElem?_getD, List.getElem?_set, h]

theorem nth_set_ne {ns : List Node} {i j : Nat} {x : Node} (h : i ≠ j) :
    nth (ns.set i x) j = nth ns j := by
  simp [nth, List.getD_eq_getElem?_getD, List.getElem?_set, h]

theorem nth_append_lt {ns ms : List Node} {i : Nat} (h : i < ns.length) :
    nth (ns ++ ms) i = nth ns i := by
  simp [nth, List.getD_eq_getElem?_getD, List.getElem?_append, h]

theorem nth_append_len {ns : List Node} {x : Node} :
    nth (ns ++ [x]) ns.length = x := by
  simp [nth, List.getD_eq_getElem?_getD, List.getElem?_concat_length]

theorem lookupOut_congr {ns ns' : List Node} {i : Nat} (e : String)
    (h : (nth ns' i).outs = (nth ns i).outs) :
    lookupOut ns' i e = lookupOut ns i e := by
  simp [lookupOut, h]

theorem lookupOut_mem {ns : List Node} {i c : Nat} {e : String}
    (h : lookupOut ns i e = some c) : (e, c) ∈ (nth ns i).outs := by
  simp only [lookupOut, Option.map_eq_some'] at h
  obtain ⟨pr, hfind, hsnd⟩ := h
  have hmem := List.mem_of_find?_eq_some hfind
  have hkey := List.find?_some hfind
  have : pr.1 = e := by simpa using hkey
  have : pr = (e, c) := by
    cases pr
    simp_all
  rwa [this] at hmem

theorem lookupOut_oob {ns : List Node} {i : Nat} (e : String)
    (h : ns.length ≤ i) : lookupOut ns i e = none := by
  simp [lookupOut, nth_oob h, dummyNode]

theorem lookupOut_lt {ns : List Node} {i c : Nat} {e : String}
    (h : lookupOut ns i e = some c) : i < ns.length := by
  by_contra hc
  rw [lookupOut_oob e (Nat.le_of_not_lt hc)] at h
  exact Option.noConfusion h

/-- All structural well-formedness invariants of the node arena that the
insertion walk establishes and that builds and scans rely on: a root of
depth -1 exists, edges stay inside the arena, strictly increase the arena
index, increase the depth by exactly one, every node has a unique incoming
edge (tree shape), every node is reached from the root by a path whose
length is its depth plus one, and all stored output members are arena
indices. -/
structure WF (ns : List Node) : Prop where
  len_pos : 0 < ns.length
  root_depth : (nth ns 0).depth = -1
  depth_ge : ∀ i, -1 ≤ (nth ns i).depth
  edge_range : ∀ i, ∀ pr ∈ (nth ns i).outs, pr.2 < ns.length
  edge_lt : ∀ i, ∀ pr ∈ (nth ns i).outs, i < pr.2
  edge_depth : ∀ i, ∀ pr ∈ (nth ns i).outs,
    (nth ns pr.2).depth = (nth ns i).depth + 1
  up : ∀ i j, ∀ pr ∈ (nth ns i).outs, ∀ qr ∈ (nth ns j).outs,
    pr.2 = qr.2 → i = j ∧ pr.1 = qr.1
  reach : ∀ j, j < ns.length → ∃ q, findN ns 0 q = some j ∧
    (q.length : Int) = (nth ns j).depth + 1
  out_range : ∀ i, ∀ r ∈ (nth ns i).outputs, r < ns.length

theorem WF_init : WF Automaton.init.nodes := by
  refine ⟨by simp [Automaton.init], rfl, ?_, ?_, ?_, ?_, ?_, ?_, ?_⟩
  · intro i
    match i with
    | 0 => exact le_refl _
    | i + 1 => simp [Automaton.init, nth, dummyNode]
  · intro i pr hpr
    match i with
    | 0 => simp [Automaton.init, nth] at hpr
    | i + 1 => simp [Automaton.init, nth, dummyNode] at hpr
  · intro i pr hpr
    match i with
    | 0 => simp [Automaton.init, nth] at hpr
    | i + 1 => simp [Automaton.init, nth, dummyNode] at hpr
  · intro i pr hpr
    match i with
    | 0 => simp [Automaton.init, nth] at hpr
    | i + 1 => simp [Automaton.init, nth, dummyNode] at hpr
  · intro i j pr hpr
    match i with
    | 0 => simp [Automaton.init, nth] at hpr
    | i + 1 => simp [Automaton.init, nth, dummyNode] at hpr
  · intro j hj
    have : j = 0 := by simpa [Automaton.init] using Nat.lt_one_iff.mp hj
    subst this
    exact ⟨[], rfl, by simp [Automaton.init, nth]⟩
  · intro i r hr
    match i with
    | 0 => simp [Automaton.init, nth] at hr
    | i + 1 => simp [Automaton.init, nth, dummyNode] at hr

end ACA

namespace ACA

theorem findN_lt {ns : List Node} (hR : ∀ i, ∀ pr ∈ (nth ns i).outs,
    pr.2 < ns.length) :
    ∀ {q : List String} {s j : Nat}, findN ns s q = some j → s < ns.length →
    j < ns.length := by
  intro q
  induction q with
  | nil =>
    intro s j h hs
    simp [findN] at h
    omega
  | cons e rest ih =>
    intro s j h hs
    simp only [findN] at h
    cases hl : lookupOut ns s e with
    | none => rw [hl] at h; exact Option.noConfusion h
    | some c =>
      rw [hl] at h
      exact ih h (hR s (e, c) (lookupOut_mem hl))

theorem findN_id_le {ns : List Node} (hL : ∀ i, ∀ pr ∈ (nth ns i).outs,
    i < pr.2) :
    ∀ {q : List String} {s j : Nat}, findN ns s q = some j →
    s + q.length ≤ j := by
  intro q
  induction q with
  | nil =>
    intro s j h
    simp [findN] at h
    simp [h]
  | cons e rest ih =>
    intro s j h
    simp only [findN] at h
    cases hl : lookupOut ns s e with
    | none => rw [hl] at h; exact Option.noConfusion h
    | some c =>
      rw [hl] at h
      have h1 : s < c := hL s (e, c) (lookupOut_mem hl)
      have h2 := ih h
      simp only [List.length_cons]
      omega

theorem findN_congr {ns ns' : List Node}
    (h : ∀ i, (nth ns' i).outs = (nth ns i).outs) :
    ∀ (q : List String) (s : Nat), findN ns' s q = findN ns s q := by
  intro q
  induction q with
  | nil => intro s; rfl
  | cons e rest ih =>
    intro s
    simp only [findN, lookupOut_congr e (h s)]
    cases lookupOut ns s e with
    | none => rfl
    | some c => exact ih c

theorem findN_concat {ns : List Node} {e : String} :
    ∀ {q : List String} {s j : Nat},
    findN ns s (q ++ [e]) = some j ↔
    ∃ u, findN ns s q = some u ∧ lookupOut ns u e = some j := by
  intro q
  induction q with
  | nil =>
    intro s j
    constructor
    · intro h
      simp only [List.nil_append, findN] at h
      cases hl : lookupOut ns s e with
      | none => rw [hl] at h; exact Option.noConfusion h
      | some c =>
        rw [hl] at h
        simp only [findN] at h
        exact ⟨s, rfl, by rw [hl, h]⟩
    · rintro ⟨u, hu, hl⟩
      simp only [findN] at hu
      cases hu
      simp only [List.nil_append, findN, hl]
  | cons f rest ih =>
    intro s j
    constructor
    · intro h
      simp only [List.cons_append, findN] at h
      cases hl : lookupOut ns s f with
      | none => rw [hl] at h; exact Option.noConfusion h
      | some c =>
        rw [hl] at h
        obtain ⟨u, hu, hl2⟩ := ih.mp h
        refine ⟨u, ?_, hl2⟩
        simp only [findN, hl]
        exact hu
    · rintro ⟨u, hu, hl⟩
      simp only [findN] at hu
      cases hlf : lookupOut ns s f with
      | none => rw [hlf] at hu; exact Option.noConfusion hu
      | some c =>
        rw [hlf] at hu
        simp only [List.cons_append, findN, hlf]
        exact ih.mpr ⟨u, hu, hl⟩

theorem depth_nonneg {ns : List Node} (hW : WF ns) {j : Nat}
    (hj : j < ns.length) (h0 : j ≠ 0) : 0 ≤ (nth ns j).depth := by
  obtain ⟨q, hq, hlen⟩ := hW.reach j hj
  cases q with
  | nil =>
    simp only [findN] at hq
    cases hq
    exact absurd rfl h0
  | cons e rest =>
    simp only [List.length_cons] at hlen
    omega

theorem depth_le_id {ns : List Node} (hW : WF ns) {j : Nat}
    (hj : j < ns.length) : (nth ns j).depth + 1 ≤ (j : Int) := by
  obtain ⟨q, hq, hlen⟩ := hW.reach j hj
  have := findN_id_le hW.edge_lt hq
  omega

theorem path_unique {ns : List Node} (hW : WF ns) :
    ∀ {q q' : List String} {j : Nat}, findN ns 0 q = some j →
    findN ns 0 q' = some j → q = q' := by
  intro q
  induction q using List.reverseRecOn with
  | nil =>
    intro q' j hq hq'
    simp only [findN] at hq
    cases hq
    rcases List.eq_nil_or_concat q' with h | ⟨L, b, h⟩
    · exact h.symm
    · rw [List.concat_eq_append] at h
      subst h
      obtain ⟨u, _, hl⟩ := findN_concat.mp hq'
      have := hW.edge_lt u (b, 0) (lookupOut_mem hl)
      omega
  | append_singleton q0 e ih =>
    intro q' j hq hq'
    obtain ⟨u, hu, hl⟩ := findN_concat.mp hq
    rcases List.eq_nil_or_concat q' with h | ⟨L, b, h⟩
    · subst h
      simp only [findN] at hq'
      cases hq'
      have := hW.edge_lt u (e, 0) (lookupOut_mem hl)
      omega
    · rw [List.concat_eq_append] at h
      subst h
      obtain ⟨u', hu', hl'⟩ := findN_concat.mp hq'
      obtain ⟨huu, hee⟩ := hW.up u u' (e, j) (lookupOut_mem hl) (b, j)
        (lookupOut_mem hl') rfl
      subst huu
      subst hee
      rw [ih hu hu']

end ACA

namespace ACA

theorem length_setapp {ns : List Node} {s : Nat} {x y : Node} :
    (ns.set s x ++ [y]).length = ns.length + 1 := by
  simp

theorem nth_setapp_self {ns : List Node} {s : Nat} {x y : Node}
    (h : s < ns.length) : nth (ns.set s x ++ [y]) s = x := by
  rw [nth_append_lt (by simpa using h), nth_set_self h]

theorem nth_setapp_other {ns : List Node} {s i : Nat} {x y : Node}
    (h : i ≠ s) (h2 : i < ns.length) : nth (ns.set s x ++ [y]) i = nth ns i := by
  rw [nth_append_lt (by simpa using h2), nth_set_ne (fun he => h he.symm)]

theorem nth_setapp_new {ns : List Node} {s : Nat} {x y : Node} :
    nth (ns.set s x ++ [y]) ns.length = y := by
  have : nth (ns.set s x ++ [y]) (ns.set s x).length = y := nth_append_len
  rwa [List.length_set] at this

theorem nth_setapp_oob {ns : List Node} {s i : Nat} {x y : Node}
    (h : ns.length + 1 ≤ i) : nth (ns.set s x ++ [y]) i = dummyNode :=
  nth_oob (by simpa using h)

theorem opt_some_or {α : Type} (a : α) (o : Option α) :
    (some a).or o = some a := rfl

theorem opt_none_or {α : Type} (o : Option α) : (none : Option α).or o = o :=
  rfl

/-- Following the insertion walk, an existing edge binding survives the
creation of one new node (the walk only appends a fresh key at a slot where
that key was absent). -/
theorem lookup_step_mono {ns : List Node} {s : Nat} {e : String} {y : Node}
    {i c : Nat} {e' : String} (hl : lookupOut ns i e' = some c) :
    lookupOut (ns.set s { nth ns s with
      outs := (nth ns s).outs ++ [(e, ns.length)] } ++ [y]) i e' = some c := by
  have hi : i < ns.length := lookupOut_lt hl
  by_cases hs : i = s
  · subst hs
    simp only [lookupOut, Option.map_eq_some'] at hl
    obtain ⟨pr, hfind, hsnd⟩ := hl
    simp only [lookupOut, nth_setapp_self hi, List.find?_append, hfind,
      opt_some_or, Option.map_eq_some']
    exact ⟨pr, rfl, hsnd⟩
  · have houts : (nth (ns.set s { nth ns s with
        outs := (nth ns s).outs ++ [(e, ns.length)] } ++ [y]) i).outs =
        (nth ns i).outs := by rw [nth_setapp_other hs hi]
    rw [lookupOut_congr e' houts]
    exact hl

/-- Conversely, an edge binding found after the creation of one new node is
either an old binding or points at the new node. -/
theorem lookup_step_back {ns : List Node} {s : Nat} {e : String} {y : Node}
    {i c : Nat} {e' : String} (hi : i < ns.length)
    (hl : lookupOut (ns.set s { nth ns s with
      outs := (nth ns s).outs ++ [(e, ns.length)] } ++ [y]) i e' = some c) :
    lookupOut ns i e' = some c ∨ c = ns.length := by
  by_cases hs : i = s
  · subst hs
    simp only [lookupOut, nth_setapp_self hi, List.find?_append,
      Option.map_eq_some'] at hl
    obtain ⟨pr, hfind, hsnd⟩ := hl
    cases hold : (nth ns i).outs.find? (fun pr => pr.1 == e') with
    | some pr0 =>
      rw [hold, opt_some_or] at hfind
      cases hfind
      exact Or.inl (by simp [lookupOut, hold, hsnd])
    | none =>
      rw [hold, opt_none_or] at hfind
      have hpr : pr = (e, ns.length) := by
        have := List.mem_of_find?_eq_some hfind
        simpa using this
      subst hpr
      exact Or.inr hsnd.symm
  · have houts : (nth (ns.set s { nth ns s with
        outs := (nth ns s).outs ++ [(e, ns.length)] } ++ [y]) i).outs =
        (nth ns i).outs := by rw [nth_setapp_other hs hi]
    rw [lookupOut_congr e' houts] at hl
    exact Or.inl hl

/-- A pointwise some-preserving transformation of edge lookups preserves
trie walks. -/
theorem findN_mono_of_lookup {ns ms : List Node}
    (h : ∀ i e c, lookupOut ns i e = some c → lookupOut ms i e = some c) :
    ∀ {q : List String} {a b : Nat}, findN ns a q = some b →
    findN ms a q = some b := by
  intro q
  induction q with
  | nil => intro a b hf; exact hf
  | cons e rest ih =>
    intro a b hf
    simp only [findN] at hf ⊢
    cases hl : lookupOut ns a e with
    | none => rw [hl] at hf; exact Option.noConfusion hf
    | some c =>
      rw [hl] at hf
      rw [h a e c hl]
      exact ih hf

theorem addLoop_len_le :
    ∀ (p : List String) (ns : List Node) (al : List String) (s d : Nat),
    ns.length ≤ (addLoop ns al s d p).1.length := by
  intro p
  induction p with
  | nil => intro ns al s d; exact le_refl _
  | cons e rest ih =>
    intro ns al s d
    simp only [addLoop]
    cases hl : lookupOut ns s e with
    | some c => simpa using ih ns _ c (d + 1)
    | none =>
      simp only
      refine le_trans ?_ (ih _ _ _ _)
      simp

theorem addLoop_lookup_mono :
    ∀ (p : List String) (ns : List Node) (al : List String) (s d : Nat)
    {i c : Nat} {e' : String}, lookupOut ns i e' = some c →
    lookupOut (addLoop ns al s d p).1 i e' = some c := by
  intro p
  induction p with
  | nil => intro ns al s d i c e' h; exact h
  | cons e rest ih =>
    intro ns al s d i c e' h
    simp only [addLoop]
    cases hl : lookupOut ns s e with
    | some c2 => simpa using ih ns _ c2 (d + 1) h
    | none =>
      simp only
      exact ih _ _ _ _ (lookup_step_mono h)

theorem addLoop_findN_mono {p : List String} {ns : List Node}
    {al : List String} {s d : Nat} {q : List String} {a b : Nat}
    (h : findN ns a q = some b) :
    findN (addLoop ns al s d p).1 a q = some b :=
  findN_mono_of_lookup (fun i e c hl => addLoop_lookup_mono p ns al s d hl) h

theorem addLoop_old_node :
    ∀ (p : List String) (ns : List Node) (al : List String) (s d : Nat)
    {i : Nat}, i < ns.length →
    (nth (addLoop ns al s d p).1 i).value = (nth ns i).value ∧
    (nth (addLoop ns al s d p).1 i).depth = (nth ns i).depth ∧
    (nth (addLoop ns al s d p).1 i).outputs = (nth ns i).outputs := by
  intro p
  induction p with
  | nil => intro ns al s d i h; exact ⟨rfl, rfl, rfl⟩
  | cons e rest ih =>
    intro ns al s d i h
    simp only [addLoop]
    cases hl : lookupOut ns s e with
    | some c =>
      simp only [hl]
      exact ih ns _ c (d + 1) h
    | none =>
      simp only [hl]
      have hrec := ih (ns.set s { nth ns s with
          outs := (nth ns s).outs ++ [(e, ns.length)] } ++
          [{ node_id := ns.length, depth := (d : Int), value := "",
             outs := [], outputs := [] }])
        (if al.contains e then al else al ++ [e]) ns.length (d + 1)
        (i := i) (by simp; omega)
      have hstep : nth (ns.set s { nth ns s with
          outs := (nth ns s).outs ++ [(e, ns.length)] } ++
          [{ node_id := ns.length, depth := (d : Int), value := "",
             outs := [], outputs := [] }]) i = nth ns i ∨
          (nth (ns.set s { nth ns s with
          outs := (nth ns s).outs ++ [(e, ns.length)] } ++
          [{ node_id := ns.length, depth := (d : Int), value := "",
             outs := [], outputs := [] }]) i).value = (nth ns i).value ∧
          (nth (ns.set s { nth ns s with
          outs := (nth ns s).outs ++ [(e, ns.length)] } ++
          [{ node_id := ns.length, depth := (d : Int), value := "",
             outs := [], outputs := [] }]) i).depth = (nth ns i).depth ∧
          (nth (ns.set s { nth ns s with
          outs := (nth ns s).outs ++ [(e, ns.length)] } ++
          [{ node_id := ns.length, depth := (d : Int), value := "",
             outs := [], outputs := [] }]) i).outputs =
            (nth ns i).outputs := by
        by_cases hs : i = s
        · subst hs
          rw [nth_setapp_self h]
          exact Or.inr ⟨rfl, rfl, rfl⟩
        · exact Or.inl (nth_setapp_other hs h)
      rcases hstep with hstep | ⟨h1, h2, h3⟩
      · rw [hrec.1, hrec.2.1, hrec.2.2, hstep]
        exact ⟨rfl, rfl, rfl⟩
      · rw [hrec.1, hrec.2.1, hrec.2.2, h1, h2, h3]
        exact ⟨rfl, rfl, rfl⟩

/-- One insertion step preserves the in-arena bound on edge targets. -/
theorem edge_range_step {ns : List Node} {s : Nat} {e : String} {d : Nat}
    (hER : ∀ i, ∀ pr ∈ (nth ns i).outs, pr.2 < ns.length) :
    ∀ i, ∀ pr ∈ (nth (ns.set s { nth ns s with
      outs := (nth ns s).outs ++ [(e, ns.length)] } ++
      [{ node_id := ns.length, depth := (d : Int), value := "", outs := [],
         outputs := [] }]) i).outs,
    pr.2 < ns.length + 1 := by
  intro i pr hpr
  rcases Nat.lt_trichotomy i ns.length with hi | hi | hi
  · by_cases hs : i = s
    · subst hs
      rw [nth_setapp_self hi] at hpr
      simp only [List.mem_append, List.mem_singleton] at hpr
      rcases hpr with hpr | hpr
      · exact lt_trans (hER i pr hpr) (Nat.lt_succ_self _)
      · subst hpr; exact Nat.lt_succ_self _
    · rw [nth_setapp_other hs hi] at hpr
      exact lt_trans (hER i pr hpr) (Nat.lt_succ_self _)
  · subst hi
    rw [nth_setapp_new] at hpr
    simp at hpr
  · rw [nth_setapp_oob hi] at hpr
    simp [dummyNode] at hpr

theorem addLoop_new_node :
    ∀ (p : List String) (ns : List Node) (al : List String) (s d : Nat)
    {i : Nat}, ns.length ≤ i →
    (nth (addLoop ns al s d p).1 i).value = "" ∧
    (nth (addLoop ns al s d p).1 i).outputs = [] := by
  intro p
  induction p with
  | nil =>
    intro ns al s d i h
    constructor
    · simp [addLoop, nth_oob h, dummyNode]
    · simp [addLoop, nth_oob h, dummyNode]
  | cons e rest ih =>
    intro ns al s d i h
    simp only [addLoop]
    cases hl : lookupOut ns s e with
    | some c =>
      simp only [hl]
      exact ih ns _ c (d + 1) h
    | none =>
      simp only [hl]
      rcases Nat.eq_or_lt_of_le h with hi | hi
      · have hold := addLoop_old_node rest (ns.set s { nth ns s with
            outs := (nth ns s).outs ++ [(e, ns.length)] } ++
            [{ node_id := ns.length, depth := (d : Int), value := "",
               outs := [], outputs := [] }])
          (if al.contains e then al else al ++ [e]) ns.length (d + 1)
          (i := i) (by simp; omega)
        rw [hold.1, hold.2.2, ← hi, nth_setapp_new]
        exact ⟨rfl, rfl⟩
      · exact ih _ _ _ _ (by simp; omega)

theorem addLoop_lookup_back :
    ∀ (p : List String) (ns : List Node) (al : List String) (s d : Nat)
    {i c : Nat} {w : String}, i < ns.length →
    lookupOut (addLoop ns al s d p).1 i w = some c →
    lookupOut ns i w = some c ∨ ns.length ≤ c := by
  intro p
  induction p with
  | nil => intro ns al s d i c w hi h; exact Or.inl h
  | cons e rest ih =>
    intro ns al s d i c w hi h
    simp only [addLoop] at h
    cases hl : lookupOut ns s e with
    | some c2 =>
      rw [hl] at h
      simp only at h
      exact ih ns _ c2 (d + 1) hi h
    | none =>
      rw [hl] at h
      simp only at h
      have hstep := ih _ _ _ _ (i := i) (c := c) (w := w)
        (by simp; omega) h
      rcases hstep with hstep | hstep
      · rcases lookup_step_back hi hstep with hb | hb
        · exact Or.inl hb
        · exact Or.inr (le_of_eq hb.symm)
      · exact Or.inr (by simp at hstep; omega)

theorem addLoop_lookup_new :
    ∀ (p : List String) (ns : List Node) (al : List String) (s d : Nat)
    {i c : Nat} {w : String}, ns.length ≤ i →
    lookupOut (addLoop ns al s d p).1 i w = some c →
    ns.length ≤ c := by
  intro p
  induction p with
  | nil =>
    intro ns al s d i c w hi h
    simp only [addLoop] at h
    rw [lookupOut_oob w hi] at h
    exact Option.noConfusion h
  | cons e rest ih =>
    intro ns al s d i c w hi h
    simp only [addLoop] at h
    cases hl : lookupOut ns s e with
    | some c2 =>
      rw [hl] at h
      simp only at h
      exact ih ns _ c2 (d + 1) hi h
    | none =>
      rw [hl] at h
      simp only at h
      rcases Nat.eq_or_lt_of_le hi with hieq | hilt
      · have hback := addLoop_lookup_back rest _ _ ns.length (d + 1)
          (i := i) (c := c) (w := w) (by simp; omega) h
        rcases hback with hb | hb
        · exfalso
          rw [← hieq] at hb
          have hns : nth (ns.set s { nth ns s with
              outs := (nth ns s).outs ++ [(e, ns.length)] } ++
              [{ node_id := ns.length, depth := (d : Int), value := "",
                 outs := [], outputs := [] }]) ns.length =
              { node_id := ns.length, depth := (d : Int), value := "",
                outs := [], outputs := [] } := nth_setapp_new
          simp [lookupOut, hns] at hb
        · rw [length_setapp] at hb
          omega
      · have := ih _ _ _ _ (i := i) (c := c) (w := w) (by simp; omega) h
        simp at this
        omega

theorem addLoop_findN_new :
    ∀ (q : List String) (p : List String) (ns : List Node)
    (al : List String) (s d : Nat) {a j : Nat}, ns.length ≤ a →
    findN (addLoop ns al s d p).1 a q = some j → ns.length ≤ j := by
  intro q
  induction q with
  | nil =>
    intro p ns al s d a j ha h
    simp only [findN] at h
    cases h
    exact ha
  | cons e rest ih =>
    intro p ns al s d a j ha h
    simp only [findN] at h
    cases hl : lookupOut (addLoop ns al s d p).1 a e with
    | none => rw [hl] at h; exact Option.noConfusion h
    | some c =>
      rw [hl] at h
      exact ih p ns al s d (addLoop_lookup_new p ns al s d ha hl) h

theorem addLoop_findN_back
    {ns : List Node} (hER : ∀ i, ∀ pr ∈ (nth ns i).outs, pr.2 < ns.length) :
    ∀ (q : List String) (p : List String) (al : List String) (s d : Nat)
    {a j : Nat}, a < ns.length →
    findN (addLoop ns al s d p).1 a q = some j →
    findN ns a q = some j ∨ ns.length ≤ j := by
  intro q
  induction q with
  | nil =>
    intro p al s d a j ha h
    simp only [findN] at h
    cases h
    exact Or.inl rfl
  | cons e rest ih =>
    intro p al s d a j ha h
    simp only [findN] at h
    cases hl : lookupOut (addLoop ns al s d p).1 a e with
    | none => rw [hl] at h; exact Option.noConfusion h
    | some c =>
      rw [hl] at h
      rcases addLoop_lookup_back p ns al s d ha hl with hb | hb
      · have hc : c < ns.length := hER a (e, c) (lookupOut_mem hb)
        rcases ih p al s d hc h with hr | hr
        · exact Or.inl (by simp only [findN, hb]; exact hr)
        · exact Or.inr hr
      · exact Or.inr (addLoop_findN_new rest p ns al s d hb h)

/-- The arena after one node-creating step of the insertion walk: the new
node `Node(nodes.size(), d)` is appended and the slot `s` gains the edge
`(e, nodes.size())`. -/
def stepArena (ns : List Node) (s : Nat) (e : String) (d : Nat) :
    List Node :=
  ns.set s { nth ns s with outs := (nth ns s).outs ++ [(e, ns.length)] } ++
    [{ node_id := ns.length, depth := (d : Int), value := "", outs := [],
       outputs := [] }]

theorem addLoop_cons_none {ns : List Node} {al : List String} {s d : Nat}
    {e : String} {rest : List String} (hl : lookupOut ns s e = none) :
    addLoop ns al s d (e :: rest) =
    addLoop (stepArena ns s e d) (if al.contains e then al else al ++ [e])
      ns.length (d + 1) rest := by
  simp only [addLoop, hl, stepArena]

theorem length_stepArena {ns : List Node} {s : Nat} {e : String} {d : Nat} :
    (stepArena ns s e d).length = ns.length + 1 := by
  simp [stepArena]

theorem stepArena_edge_range {ns : List Node} {s : Nat} {e : String}
    {d : Nat} (hER : ∀ i, ∀ pr ∈ (nth ns i).outs, pr.2 < ns.length) :
    ∀ i, ∀ pr ∈ (nth (stepArena ns s e d) i).outs,
    pr.2 < (stepArena ns s e d).length := by
  intro i pr hpr
  rw [length_stepArena]
  exact edge_range_step hER i pr hpr

/-- The binding created by one insertion step is present in the stepped
arena. -/
theorem lookup_step_new {ns : List Node} {s : Nat} {e : String} {d : Nat}
    (hl : lookupOut ns s e = none) (hs : s < ns.length) :
    lookupOut (stepArena ns s e d) s e = some ns.length := by
  simp only [lookupOut, Option.map_eq_none'] at hl
  simp [lookupOut, stepArena, nth_setapp_self hs, List.find?_append, hl,
    opt_none_or, List.find?]

/-- The insertion walk reaches the returned terminal slot by following the
pattern from the start slot, and the terminal slot is inside the grown
arena. -/
theorem addLoop_find :
    ∀ (p : List String) (ns : List Node) (al : List String) (s d : Nat),
    (∀ i, ∀ pr ∈ (nth ns i).outs, pr.2 < ns.length) → s < ns.length →
    findN (addLoop ns al s d p).1 s p = some (addLoop ns al s d p).2.2 ∧
    (addLoop ns al s d p).2.2 < (addLoop ns al s d p).1.length := by
  intro p
  induction p with
  | nil =>
    intro ns al s d hER hs
    exact ⟨rfl, hs⟩
  | cons e rest ih =>
    intro ns al s d hER hs
    cases hl : lookupOut ns s e with
    | some c =>
      simp only [addLoop, hl]
      have hc : c < ns.length := hER s (e, c) (lookupOut_mem hl)
      have hrec := ih ns (if al.contains e then al else al ++ [e]) c (d + 1)
        hER hc
      refine ⟨?_, hrec.2⟩
      simp only [findN, addLoop_lookup_mono rest ns _ c (d + 1) hl]
      exact hrec.1
    | none =>
      rw [addLoop_cons_none hl]
      have hrec := ih (stepArena ns s e d)
        (if al.contains e then al else al ++ [e]) ns.length (d + 1)
        (stepArena_edge_range hER) (by rw [length_stepArena]; omega)
      refine ⟨?_, hrec.2⟩
      have hnew : lookupOut (addLoop (stepArena ns s e d)
          (if al.contains e then al else al ++ [e]) ns.length (d + 1)
          rest).1 s e = some ns.length :=
        addLoop_lookup_mono rest (stepArena ns s e d) _ ns.length (d + 1)
          (lookup_step_new hl hs)
      simp only [findN, hnew]
      exact hrec.1

/-- Every slot created by the insertion walk is reached from the start slot
by a non-empty prefix of the inserted pattern, and its stored depth records
the prefix length. -/
theorem addLoop_new_reached :
    ∀ (p : List String) (ns : List Node) (al : List String) (s d : Nat),
    (∀ i, ∀ pr ∈ (nth ns i).outs, pr.2 < ns.length) → s < ns.length →
    ∀ {j : Nat}, ns.length ≤ j → j < (addLoop ns al s d p).1.length →
    ∃ k, 1 ≤ k ∧ k ≤ p.length ∧
    findN (addLoop ns al s d p).1 s (p.take k) = some j ∧
    (nth (addLoop ns al s d p).1 j).depth = (d : Int) + (k : Int) - 1 := by
  intro p
  induction p with
  | nil =>
    intro ns al s d hER hs j hj hj2
    simp only [addLoop] at hj2
    omega
  | cons e rest ih =>
    intro ns al s d hER hs j hj hj2
    cases hl : lookupOut ns s e with
    | some c =>
      simp only [addLoop, hl] at hj2 ⊢
      have hc : c < ns.length := hER s (e, c) (lookupOut_mem hl)
      obtain ⟨k, hk1, hk2, hfind, hdep⟩ := ih ns
        (if al.contains e then al else al ++ [e]) c (d + 1) hER hc hj hj2
      refine ⟨k + 1, by omega, by simp; omega, ?_, ?_⟩
      · rw [List.take_succ_cons]
        simp only [findN, addLoop_lookup_mono rest ns _ c (d + 1) hl]
        exact hfind
      · rw [hdep]; push_cast; ring
    | none =>
      rw [addLoop_cons_none hl] at hj2 ⊢
      have hnew : lookupOut (addLoop (stepArena ns s e d)
          (if al.contains e then al else al ++ [e]) ns.length (d + 1)
          rest).1 s e = some ns.length :=
        addLoop_lookup_mono rest (stepArena ns s e d) _ ns.length (d + 1)
          (lookup_step_new hl hs)
      rcases Nat.eq_or_lt_of_le hj with hje | hjl
      · refine ⟨1, le_refl 1, by simp, ?_, ?_⟩
        · rw [List.take_succ_cons, List.take_zero]
          simp only [findN, hnew, ← hje]
        · have hold := addLoop_old_node rest (stepArena ns s e d)
            (if al.contains e then al else al ++ [e]) ns.length (d + 1)
            (i := j) (by rw [length_stepArena]; omega)
          rw [hold.2.1, ← hje]
          have : nth (stepArena ns s e d) ns.length =
              { node_id := ns.length, depth := (d : Int), value := "",
                outs := [], outputs := [] } := nth_setapp_new
          rw [this]
          simp
      · obtain ⟨k, hk1, hk2, hfind, hdep⟩ := ih (stepArena ns s e d)
          (if al.contains e then al else al ++ [e]) ns.length (d + 1)
          (stepArena_edge_range hER) (by rw [length_stepArena]; omega)
          (by rw [length_stepArena]; omega) hj2
        refine ⟨k + 1, by omega, by simp; omega, ?_, ?_⟩
        · rw [List.take_succ_cons]
          simp only [findN, hnew]
          exact hfind
        · rw [hdep]; push_cast; ring

/-- After `add`, the inserted pattern leads to the walk's terminal slot and
reads back the just-stored value. -/
theorem add_find_self (A : Automaton) (p : List String) (v : String)
    (hER : ∀ i, ∀ pr ∈ (nth A.nodes i).outs, pr.2 < A.nodes.length)
    (h0 : 0 < A.nodes.length) :
    (A.add p v).find_node p = some (addLoop A.nodes A.alphabet 0 0 p).2.2 ∧
    (A.add p v).get_value p = v := by
  have hfind := (addLoop_find p A.nodes A.alphabet 0 0 hER h0).1
  have hm := (addLoop_find p A.nodes A.alphabet 0 0 hER h0).2
  have houts : ∀ i, (nth (A.add p v).nodes i).outs =
      (nth (addLoop A.nodes A.alphabet 0 0 p).1 i).outs := by
    intro i
    by_cases hi : i = (addLoop A.nodes A.alphabet 0 0 p).2.2
    · subst hi
      simp only [Automaton.add, nth_set_self hm]
    · simp only [Automaton.add, nth_set_ne (fun h => hi h.symm)]
  have hfound : (A.add p v).find_node p =
      some (addLoop A.nodes A.alphabet 0 0 p).2.2 := by
    show findN (A.add p v).nodes 0 p = _
    rw [findN_congr houts]
    exact hfind
  refine ⟨hfound, ?_⟩
  simp only [Automaton.get_value, hfound]
  simp only [Automaton.add, nth_set_self hm]

/-- C5: immediately after `insert(p, v)` with a non-empty value `v`, the
queries `has_pattern(p)` and `get_value(p)` return true and `v`, on any
well-formed automaton state, hence regardless of earlier insertions of `p`
with other values (re-insertion overwrites the stored value). -/
theorem c5_insert_then_query (A : Automaton) (p : List String) (v : String)
    (hW : WF A.nodes) (hv : v ≠ "") :
    (A.add p v).has_pattern p = true ∧ (A.add p v).get_value p = v := by
  have h := add_find_self A p v hW.edge_range hW.len_pos
  refine ⟨?_, h.2⟩
  simp only [Automaton.has_pattern, h.1]
  have hval : (nth (A.add p v).nodes
      (addLoop A.nodes A.alphabet 0 0 p).2.2).value = v := by
    have := add_find_self A p v hW.edge_range hW.len_pos
    simp only [Automaton.get_value, this.1] at this
    exact this.2
  rw [hval]
  simpa using hv

theorem stepArena_old_node {ns : List Node} {s : Nat} {e : String} {d : Nat}
    {i : Nat} (hi : i < ns.length) :
    (nth (stepArena ns s e d) i).depth = (nth ns i).depth ∧
    (nth (stepArena ns s e d) i).value = (nth ns i).value ∧
    (nth (stepArena ns s e d) i).outputs = (nth ns i).outputs := by
  by_cases hs : i = s
  · subst hs
    have h : nth (stepArena ns i e d) i = { nth ns i with
        outs := (nth ns i).outs ++ [(e, ns.length)] } := nth_setapp_self hi
    rw [h]
    exact ⟨rfl, rfl, rfl⟩
  · have h : nth (stepArena ns s e d) i = nth ns i :=
      nth_setapp_other hs hi
    rw [h]
    exact ⟨rfl, rfl, rfl⟩

theorem stepArena_new_node {ns : List Node} {s : Nat} {e : String}
    {d : Nat} : nth (stepArena ns s e d) ns.length =
    { node_id := ns.length, depth := (d : Int), value := "", outs := [],
      outputs := [] } :=
  nth_setapp_new

theorem stepArena_oob {ns : List Node} {s : Nat} {e : String} {d : Nat}
    {i : Nat} (hi : ns.length + 1 ≤ i) :
    nth (stepArena ns s e d) i = dummyNode :=
  nth_setapp_oob hi

theorem stepArena_mem {ns : List Node} {s : Nat} {e : String} {d : Nat}
    (hs : s < ns.length) {i : Nat} {pr : String × Nat} :
    pr ∈ (nth (stepArena ns s e d) i).outs ↔
    (i < ns.length ∧ pr ∈ (nth ns i).outs) ∨ (i = s ∧ pr = (e, ns.length)) := by
  rcases Nat.lt_trichotomy i ns.length with hi | hi | hi
  · by_cases hes : i = s
    · subst hes
      have h : nth (stepArena ns i e d) i = { nth ns i with
          outs := (nth ns i).outs ++ [(e, ns.length)] } := nth_setapp_self hi
      rw [h]
      simp [hi]
    · have h : nth (stepArena ns s e d) i = nth ns i :=
        nth_setapp_other hes hi
      rw [h]
      simp [hi, hes]
  · subst hi
    rw [stepArena_new_node]
    constructor
    · intro h; simp at h
    · rintro (⟨h, _⟩ | ⟨h, _⟩)
      · omega
      · omega
  · rw [stepArena_oob (by omega)]
    constructor
    · intro h; simp [dummyNode] at h
    · rintro (⟨h, _⟩ | ⟨h, _⟩)
      · omega
      · omega

theorem stepArena_lookup_mono {ns : List Node} {s : Nat} {e : String}
    {d : Nat} {i c : Nat} {w : String} (hl : lookupOut ns i w = some c) :
    lookupOut (stepArena ns s e d) i w = some c :=
  lookup_step_mono hl

/-- One node-creating step of the insertion walk preserves all structural
invariants, provided the new node extends the walk position `s` at depth
`d - 1` reached by the path `q0`. -/
theorem stepArena_WF {ns : List Node} {s : Nat} {e : String} {d : Nat}
    {q0 : List String} (hW : WF ns) (hs : s < ns.length)
    (hl : lookupOut ns s e = none)
    (hdep : (nth ns s).depth = (d : Int) - 1)
    (hq0 : findN ns 0 q0 = some s) (hq0len : q0.length = d) :
    WF (stepArena ns s e d) := by
  have hlen : (stepArena ns s e d).length = ns.length + 1 := length_stepArena
  refine ⟨?_, ?_, ?_, ?_, ?_, ?_, ?_, ?_, ?_⟩
  · rw [hlen]; omega
  · rw [(stepArena_old_node hW.len_pos).1]
    exact hW.root_depth
  · intro i
    rcases Nat.lt_trichotomy i ns.length with hi | hi | hi
    · rw [(stepArena_old_node hi).1]; exact hW.depth_ge i
    · subst hi; rw [stepArena_new_node]; simp; omega
    · rw [stepArena_oob (by omega)]; simp [dummyNode]
  · intro i pr hpr
    rw [hlen]
    exact edge_range_step hW.edge_range i pr hpr
  · intro i pr hpr
    rcases (stepArena_mem hs).mp hpr with ⟨hi, hm⟩ | ⟨hi, hm⟩
    · exact hW.edge_lt i pr hm
    · subst hi; subst hm; exact hs
  · intro i pr hpr
    rcases (stepArena_mem hs).mp hpr with ⟨hi, hm⟩ | ⟨hi, hm⟩
    · have h2 : pr.2 < ns.length := hW.edge_range i pr hm
      rw [(stepArena_old_node h2).1, (stepArena_old_node hi).1]
      exact hW.edge_depth i pr hm
    · subst hm
      rw [hi]
      have h1 : nth (stepArena ns s e d) ns.length =
          { node_id := ns.length, depth := (d : Int), value := "",
            outs := [], outputs := [] } := stepArena_new_node
      show (nth (stepArena ns s e d) ns.length).depth = _
      rw [h1, (stepArena_old_node hs).1, hdep]
      simp
  · intro i j pr hpr qr hqr heq
    rcases (stepArena_mem hs).mp hpr with ⟨hi, hm⟩ | ⟨hi, hm⟩ <;>
      rcases (stepArena_mem hs).mp hqr with ⟨hj, hm2⟩ | ⟨hj, hm2⟩
    · exact hW.up i j pr hm qr hm2 heq
    · exfalso
      have := hW.edge_range i pr hm
      rw [heq, hm2] at this
      simp at this
    · exfalso
      have := hW.edge_range j qr hm2
      rw [← heq, hm] at this
      simp at this
    · subst hi; subst hj
      rw [hm, hm2]
      exact ⟨rfl, rfl⟩
  · intro j hj
    rw [hlen] at hj
    rcases Nat.lt_or_ge j ns.length with hjl | hjg
    · obtain ⟨q, hq, hqlen⟩ := hW.reach j hjl
      refine ⟨q, findN_mono_of_lookup (fun i w c h => stepArena_lookup_mono h) hq, ?_⟩
      rw [(stepArena_old_node hjl).1]
      exact hqlen
    · have hje : j = ns.length := by omega
      subst hje
      refine ⟨q0 ++ [e], ?_, ?_⟩
      · refine findN_concat.mpr ⟨s, ?_, ?_⟩
        · exact findN_mono_of_lookup (fun i w c h => stepArena_lookup_mono h) hq0
        · exact lookup_step_new hl hs
      · rw [stepArena_new_node]
        simp [hq0len]
  · intro i r hr
    rw [hlen]
    rcases Nat.lt_trichotomy i ns.length with hi | hi | hi
    · rw [(stepArena_old_node hi).2.2] at hr
      exact lt_trans (hW.out_range i r hr) (Nat.lt_succ_self _)
    · subst hi; rw [stepArena_new_node] at hr; simp at hr
    · rw [stepArena_oob (by omega)] at hr; simp [dummyNode] at hr

/-- The whole insertion walk preserves the structural invariants. -/
theorem addLoop_WF :
    ∀ (p : List String) (ns : List Node) (al : List String) (s d : Nat)
    (q0 : List String), WF ns → s < ns.length →
    (nth ns s).depth = (d : Int) - 1 → findN ns 0 q0 = some s →
    q0.length = d → WF (addLoop ns al s d p).1 := by
  intro p
  induction p with
  | nil => intro ns al s d q0 hW hs hdep hq0 hq0len; exact hW
  | cons e rest ih =>
    intro ns al s d q0 hW hs hdep hq0 hq0len
    cases hl : lookupOut ns s e with
    | some c =>
      simp only [addLoop, hl]
      have hmem := lookupOut_mem hl
      have hc : c < ns.length := hW.edge_range s (e, c) hmem
      refine ih ns _ c (d + 1) (q0 ++ [e]) hW hc ?_ ?_ ?_
      · have := hW.edge_depth s (e, c) hmem
        simp only at this
        rw [this, hdep]
        push_cast
        ring
      · exact findN_concat.mpr ⟨s, hq0, hl⟩
      · simp [hq0len]
    | none =>
      rw [addLoop_cons_none hl]
      refine ih (stepArena ns s e d) _ ns.length (d + 1) (q0 ++ [e])
        (stepArena_WF hW hs hl hdep hq0 hq0len)
        (by rw [length_stepArena]; omega) ?_ ?_ ?_
      · rw [stepArena_new_node]
        simp
      · refine findN_concat.mpr ⟨s, ?_, ?_⟩
        · exact findN_mono_of_lookup (fun i w c h => stepArena_lookup_mono h) hq0
        · exact lookup_step_new hl hs
      · simp [hq0len]

/-- Overwriting only the `value` and `outputs` of an in-range slot, with
output members drawn from the old ones plus the slot itself, preserves all
structural invariants. -/
theorem WF_set_terminal {ns : List Node} {m : Nat} {x : Node}
    (hW : WF ns) (hm : m < ns.length)
    (houts : x.outs = (nth ns m).outs)
    (hdepth : x.depth = (nth ns m).depth)
    (hout : ∀ r ∈ x.outputs, r = m ∨ r ∈ (nth ns m).outputs) :
    WF (ns.set m x) := by
  have hlen : (ns.set m x).length = ns.length := List.length_set ns m x
  have hnout : ∀ i, (nth (ns.set m x) i).outs = (nth ns i).outs := by
    intro i
    by_cases hi : i = m
    · subst hi; rw [nth_set_self hm, houts]
    · rw [nth_set_ne (fun h => hi h.symm)]
  have hndep : ∀ i, (nth (ns.set m x) i).depth = (nth ns i).depth := by
    intro i
    by_cases hi : i = m
    · subst hi; rw [nth_set_self hm, hdepth]
    · rw [nth_set_ne (fun h => hi h.symm)]
  refine ⟨?_, ?_, ?_, ?_, ?_, ?_, ?_, ?_, ?_⟩
  · rw [hlen]; exact hW.len_pos
  · rw [hndep 0]; exact hW.root_depth
  · intro i; rw [hndep i]; exact hW.depth_ge i
  · intro i pr hpr
    rw [hnout i] at hpr
    rw [hlen]
    exact hW.edge_range i pr hpr
  · intro i pr hpr
    rw [hnout i] at hpr
    exact hW.edge_lt i pr hpr
  · intro i pr hpr
    rw [hnout i] at hpr
    rw [hndep i, hndep pr.2]
    exact hW.edge_depth i pr hpr
  · intro i j pr hpr qr hqr heq
    rw [hnout i] at hpr
    rw [hnout j] at hqr
    exact hW.up i j pr hpr qr hqr heq
  · intro j hj
    rw [hlen] at hj
    obtain ⟨q, hq, hqlen⟩ := hW.reach j hj
    refine ⟨q, ?_, ?_⟩
    · rw [findN_congr hnout q 0]; exact hq
    · rw [hndep j]; exact hqlen
  · intro i r hr
    rw [hlen]
    by_cases hi : i = m
    · subst hi
      rw [nth_set_self hm] at hr
      rcases hout r hr with h | h
      · subst h; exact hm
      · exact hW.out_range i r h
    · rw [nth_set_ne (fun h => hi h.symm)] at hr
      exact hW.out_range i r hr

/-- `add` preserves all structural invariants of the arena. -/
theorem WF_add (A : Automaton) (p : List String) (v : String)
    (hW : WF A.nodes) : WF (A.add p v).nodes := by
  have hWR : WF (addLoop A.nodes A.alphabet 0 0 p).1 :=
    addLoop_WF p A.nodes A.alphabet 0 0 [] hW hW.len_pos
      (by rw [hW.root_depth]; simp) rfl rfl
  have hm := (addLoop_find p A.nodes A.alphabet 0 0 hW.edge_range
    hW.len_pos).2
  show WF ((addLoop A.nodes A.alphabet 0 0 p).1.set
    (addLoop A.nodes A.alphabet 0 0 p).2.2 _)
  refine WF_set_terminal hWR hm rfl rfl ?_
  intro r hr
  simp only at hr
  by_cases hc : (nth (addLoop A.nodes A.alphabet 0 0 p).1
      (addLoop A.nodes A.alphabet 0 0 p).2.2).outputs.contains
      (addLoop A.nodes A.alphabet 0 0 p).2.2
  · rw [if_pos hc] at hr
    exact Or.inr hr
  · rw [if_neg hc] at hr
    rcases List.mem_append.mp hr with h | h
    · exact Or.inr h
    · simp at h
      exact Or.inl h

/-- Witness for `c5_insert_then_query`: re-inserting pattern `["a"]` with a
new value overwrites the old one. -/
theorem c5_insert_then_query_witness :
    ((Automaton.init.add ["a"] "old").add ["a"] "new").has_pattern ["a"] =
      true ∧
    ((Automaton.init.add ["a"] "old").add ["a"] "new").get_value ["a"] =
      "new" :=
  c5_insert_then_query (Automaton.init.add ["a"] "old") ["a"] "new"
    (WF_add Automaton.init ["a"] "old" WF_init) (by decide)

/-- The invariant of failure tables: every entry of a live slot stays in the
arena and either points at the root or strictly decreases the depth.  The
zero-initialized table satisfies it, every write of the BFS construction
preserves it, and it is exactly what makes the failure-chain walks reach a
usable transition. -/
def FailInv (ns : List Node) (T : List Nat) : Prop :=
  ∀ j, j < ns.length → T.getD j 0 < ns.length ∧
    (T.getD j 0 = 0 ∨ (nth ns (T.getD j 0)).depth < (nth ns j).depth)

/-- The builder only rewrites outputs: arena length, edges, depths and
values all survive `update_automaton`. -/
def Pres (ns0 ns : List Node) : Prop :=
  ns.length = ns0.length ∧ ∀ i, (nth ns i).outs = (nth ns0 i).outs ∧
    (nth ns i).depth = (nth ns0 i).depth ∧
    (nth ns i).value = (nth ns0 i).value

/-- All output members stored anywhere in the arena are arena indices. -/
def OutR (ns0 ns : List Node) : Prop :=
  ∀ i, ∀ r ∈ (nth ns i).outputs, r < ns0.length

theorem Pres_refl (ns : List Node) : Pres ns ns :=
  ⟨rfl, fun i => ⟨rfl, rfl, rfl⟩⟩

theorem gotoN_zero (ns : List Node) (e : String) :
    (gotoN ns 0 e).isSome := by
  cases h : lookupOut ns 0 e <;> simp [gotoN, h]

theorem gotoN_congr {ns0 ns : List Node} (hP : Pres ns0 ns) (i : Nat)
    (e : String) : gotoN ns i e = gotoN ns0 i e := by
  simp only [gotoN, lookupOut_congr e (hP.2 i).1]

theorem gotoN_cases {ns : List Node} {f z : Nat} {e : String}
    (h : gotoN ns f e = some z) :
    lookupOut ns f e = some z ∨ (f = 0 ∧ z = 0) := by
  simp only [gotoN] at h
  cases hl : lookupOut ns f e with
  | some c =>
    rw [hl] at h
    cases h
    exact Or.inl rfl
  | none =>
    rw [hl] at h
    by_cases hf : f = 0
    · subst hf
      simp at h
      exact Or.inr ⟨rfl, h.symm⟩
    · simp [hf] at h

theorem gotoN_range {ns : List Node} (h0 : 0 < ns.length)
    (hER : ∀ i, ∀ pr ∈ (nth ns i).outs, pr.2 < ns.length)
    {f z : Nat} {e : String} (h : gotoN ns f e = some z) : z < ns.length := by
  rcases gotoN_cases h with hl | ⟨_, hz⟩
  · exact hER f (e, z) (lookupOut_mem hl)
  · subst hz; exact h0

theorem chaseFail_congr {ns0 ns : List Node} (hP : Pres ns0 ns)
    (T : List Nat) :
    ∀ (fuel f : Nat) (e : String),
    chaseFail ns T fuel f e = chaseFail ns0 T fuel f e := by
  intro fuel
  induction fuel with
  | zero => intro f e; rfl
  | succ k ih =>
    intro f e
    simp only [chaseFail, gotoN_congr hP f e]
    cases gotoN ns0 f e with
    | some c => rfl
    | none => exact ih (T.getD f 0) e

theorem chase_depth {ns : List Node} {T : List Nat} (hW : WF ns)
    (hF : FailInv ns T) :
    ∀ (fuel : Nat) {s f' : Nat} {e : String}, s < ns.length →
    chaseFail ns T fuel s e = some f' →
    (nth ns f').depth ≤ (nth ns s).depth ∧ f' < ns.length := by
  intro fuel
  induction fuel with
  | zero => intro s f' e hs h; exact Option.noConfusion h
  | succ k ih =>
    intro s f' e hs h
    simp only [chaseFail] at h
    cases hg : gotoN ns s e with
    | some c =>
      rw [hg] at h
      cases h
      exact ⟨le_refl _, hs⟩
    | none =>
      rw [hg] at h
      obtain ⟨hrange, hdec⟩ := hF s hs
      have := ih hrange h
      rcases hdec with h0 | hlt
      · rw [h0] at this
        refine ⟨le_trans this.1 ?_, this.2⟩
        rw [hW.root_depth]
        exact hW.depth_ge s
      · exact ⟨le_trans this.1 (le_of_lt hlt), this.2⟩

theorem chase_success {ns : List Node} {T : List Nat} (hW : WF ns)
    (hF : FailInv ns T) :
    ∀ (fuel : Nat) {f : Nat} (e : String), f < ns.length →
    ((nth ns f).depth + 1).toNat + 1 ≤ fuel →
    ∃ f', chaseFail ns T fuel f e = some f' ∧ (gotoN ns f' e).isSome ∧
      f' < ns.length := by
  intro fuel
  induction fuel with
  | zero => intro f e hf hb; omega
  | succ k ih =>
    intro f e hf hb
    cases hg : gotoN ns f e with
    | some c =>
      refine ⟨f, ?_, by simp [hg], hf⟩
      simp only [chaseFail, hg]
    | none =>
      have hf0 : f ≠ 0 := by
        intro h
        subst h
        have := gotoN_zero ns e
        rw [hg] at this
        simp at this
      have hdf : 0 ≤ (nth ns f).depth := depth_nonneg hW hf hf0
      obtain ⟨hrange, hdec⟩ := hF f hf
      have hb' : ((nth ns (T.getD f 0)).depth + 1).toNat + 1 ≤ k := by
        rcases hdec with h0 | hlt
        · rw [h0, hW.root_depth]
          simp only [neg_add_cancel, Int.toNat_zero]
          omega
        · have h1 := hW.depth_ge (T.getD f 0)
          omega
      obtain ⟨f', hchase, hsome, hrange'⟩ := ih e hrange hb'
      refine ⟨f', ?_, hsome, hrange'⟩
      simp only [chaseFail, hg]
      exact hchase

/-- Fuel `nodes.length + 1` always suffices for the failure-chain walk on a
well-formed arena with a well-formed failure table. -/
theorem chase_success_full {ns : List Node} {T : List Nat} (hW : WF ns)
    (hF : FailInv ns T) {f : Nat} (e : String) (hf : f < ns.length) :
    ∃ f', chaseFail ns T (ns.length + 1) f e = some f' ∧
      (gotoN ns f' e).isSome ∧ f' < ns.length := by
  refine chase_success hW hF (ns.length + 1) e hf ?_
  have h1 := depth_le_id hW hf
  have h2 := hW.depth_ge f
  omega

theorem natGetD_set_self {T : List Nat} {i x : Nat} :
    (T.set i x).getD i 0 = if i < T.length then x else T.getD i 0 := by
  by_cases h : i < T.length
  · simp [List.getD_eq_getElem?_getD, List.getElem?_set, h]
  · simp [List.getD_eq_getElem?_getD, List.getElem?_set, h,
      List.getElem?_eq_none (Nat.le_of_not_lt h)]

theorem natGetD_set_ne {T : List Nat} {i j x : Nat} (h : i ≠ j) :
    (T.set i x).getD j 0 = T.getD j 0 := by
  simp [List.getD_eq_getElem?_getD, List.getElem?_set, h]

theorem natGetD_replicate {n j : Nat} :
    (List.replicate n 0).getD j 0 = 0 := by
  by_cases h : j < n
  · simp [List.getD_eq_getElem?_getD, List.getElem?_replicate, h]
  · simp [List.getD_eq_getElem?_getD,
      List.getElem?_eq_none (show (List.replicate n (0:Nat)).length ≤ j by
        simpa using Nat.le_of_not_lt h)]

/-- One BFS edge-processing pass preserves all builder invariants. -/
theorem processEdges_inv {ns0 : List Node} (hW : WF ns0) {u : Nat}
    (hu : u < ns0.length) (hud : 0 ≤ (nth ns0 u).depth) :
    ∀ (l : List (String × Nat)), (∀ pr ∈ l, pr ∈ (nth ns0 u).outs) →
    ∀ (ns : List Node) (T Q : List Nat), Pres ns0 ns → FailInv ns0 T →
    (∀ q ∈ Q, q < ns0.length ∧ 0 ≤ (nth ns0 q).depth) → OutR ns0 ns →
    Pres ns0 (processEdges u l (ns, T, Q)).1 ∧
    FailInv ns0 (processEdges u l (ns, T, Q)).2.1 ∧
    (∀ q ∈ (processEdges u l (ns, T, Q)).2.2,
      q < ns0.length ∧ 0 ≤ (nth ns0 q).depth) ∧
    OutR ns0 (processEdges u l (ns, T, Q)).1 := by
  intro l
  induction l with
  | nil =>
    intro hsub ns T Q hP hF hQ hO
    exact ⟨hP, hF, hQ, hO⟩
  | cons pr rest ih =>
    obtain ⟨e, dest⟩ := pr
    intro hsub ns T Q hP hF hQ hO
    have hmem : (e, dest) ∈ (nth ns0 u).outs := hsub (e, dest) (by simp)
    have hdest : dest < ns0.length := hW.edge_range u (e, dest) hmem
    have hdest_dep : (nth ns0 dest).depth = (nth ns0 u).depth + 1 :=
      hW.edge_depth u (e, dest) hmem
    have hstart := hF u hu
    obtain ⟨f', hchase0, hgsome, hf'⟩ :=
      chase_success_full hW hF e hstart.1
    have hchase : chaseFail ns T (ns.length + 1) (T.getD u 0) e = some f' := by
      rw [chaseFail_congr hP, hP.1]
      exact hchase0
    obtain ⟨z, hz⟩ := Option.isSome_iff_exists.mp hgsome
    have hzrange : z < ns0.length :=
      gotoN_range hW.len_pos hW.edge_range hz
    have hfdep : (nth ns0 f').depth ≤ (nth ns0 (T.getD u 0)).depth :=
      (chase_depth hW hF (ns0.length + 1) hstart.1 hchase0).1
    have hzok : z = 0 ∨ (nth ns0 z).depth < (nth ns0 dest).depth := by
      rcases gotoN_cases hz with hl | ⟨_, hz0⟩
      · right
        have hzdep : (nth ns0 z).depth = (nth ns0 f').depth + 1 :=
          hW.edge_depth f' (e, z) (lookupOut_mem hl)
        rcases hstart.2 with h0 | hlt
        · rw [h0, hW.root_depth] at hfdep
          rw [hzdep, hdest_dep]
          omega
        · rw [hzdep, hdest_dep]
          omega
      · exact Or.inl hz0
    have hgns : gotoN ns f' e = some z := by
      rw [gotoN_congr hP]
      exact hz
    have hT' : FailInv ns0 (T.set dest ((gotoN ns
        ((chaseFail ns T (ns.length + 1) (T.getD u 0) e).getD 0) e).getD 0)) := by
      rw [hchase]
      simp only [Option.getD_some, hgns]
      intro j hj
      by_cases hjd : dest = j
      · subst hjd
        rw [natGetD_set_self]
        by_cases hlen : dest < T.length
        · rw [if_pos hlen]
          exact ⟨hzrange, hzok⟩
        · rw [if_neg hlen]
          exact hF dest hj
      · rw [natGetD_set_ne hjd]
        exact hF j hj
    have hlen_ns : dest < ns.length := by rw [hP.1]; exact hdest
    have hP' : Pres ns0 (ns.set dest { nth ns dest with
        outputs := (nth ns dest).outputs ++
          (nth ns ((gotoN ns ((chaseFail ns T (ns.length + 1) (T.getD u 0) e).getD 0)
            e).getD 0)).outputs }) := by
      refine ⟨by rw [List.length_set]; exact hP.1, ?_⟩
      intro i
      by_cases hi : i = dest
      · subst hi
        rw [nth_set_self hlen_ns]
        exact ⟨(hP.2 i).1, (hP.2 i).2.1, (hP.2 i).2.2⟩
      · rw [nth_set_ne (fun h => hi h.symm)]
        exact hP.2 i
    have hO' : OutR ns0 (ns.set dest { nth ns dest with
        outputs := (nth ns dest).outputs ++
          (nth ns ((gotoN ns ((chaseFail ns T (ns.length + 1) (T.getD u 0) e).getD 0)
            e).getD 0)).outputs }) := by
      intro i r hr
      by_cases hi : i = dest
      · subst hi
        rw [nth_set_self hlen_ns] at hr
        simp only [List.mem_append] at hr
        rcases hr with hr | hr
        · exact hO i r hr
        · exact hO _ r hr
      · rw [nth_set_ne (fun h => hi h.symm)] at hr
        exact hO i r hr
    have hQ' : ∀ q ∈ Q ++ [dest], q < ns0.length ∧
        0 ≤ (nth ns0 q).depth := by
      intro q hq
      rcases List.mem_append.mp hq with hq | hq
      · exact hQ q hq
      · simp at hq
        subst hq
        refine ⟨hdest, ?_⟩
        rw [hdest_dep]
        omega
    have := ih (fun p hp => hsub p (by simp [hp])) _ _ _ hP' hT' hQ' hO'
    simpa only [processEdges] using this

/-- The BFS queue loop preserves all builder invariants. -/
theorem bfsLoop_inv {ns0 : List Node} (hW : WF ns0) :
    ∀ (fuel : Nat) (ns : List Node) (T Q : List Nat), Pres ns0 ns →
    FailInv ns0 T → (∀ q ∈ Q, q < ns0.length ∧ 0 ≤ (nth ns0 q).depth) →
    OutR ns0 ns →
    Pres ns0 (bfsLoop fuel ns T Q).1 ∧ FailInv ns0 (bfsLoop fuel ns T Q).2 ∧
    OutR ns0 (bfsLoop fuel ns T Q).1 := by
  intro fuel
  induction fuel with
  | zero => intro ns T Q hP hF hQ hO; exact ⟨hP, hF, hO⟩
  | succ k ih =>
    intro ns T Q hP hF hQ hO
    cases Q with
    | nil => exact ⟨hP, hF, hO⟩
    | cons u Q' =>
      have hu := hQ u (by simp)
      have hsub : ∀ pr ∈ (nth ns u).outs, pr ∈ (nth ns0 u).outs := by
        intro pr hpr
        rwa [(hP.2 u).1] at hpr
      have hQ' : ∀ q ∈ Q', q < ns0.length ∧ 0 ≤ (nth ns0 q).depth :=
        fun q hq => hQ q (by simp [hq])
      have hstep := processEdges_inv hW hu.1 hu.2 (nth ns u).outs hsub
        ns T Q' hP hF hQ' hO
      have := ih (processEdges u (nth ns u).outs (ns, T, Q')).1
        (processEdges u (nth ns u).outs (ns, T, Q')).2.1
        (processEdges u (nth ns u).outs (ns, T, Q')).2.2
        hstep.1 hstep.2.1 hstep.2.2.1 hstep.2.2.2
      simpa only [bfsLoop] using this

/-- `update_automaton` keeps the arena shape (lengths, edges, depths,
values), keeps output members in range, and produces a failure table
satisfying the failure invariant. -/
theorem update_inv (A : Automaton) (hW : WF A.nodes) :
    Pres A.nodes (A.update_automaton).nodes ∧
    FailInv A.nodes (A.update_automaton).fail_table ∧
    OutR A.nodes (A.update_automaton).nodes := by
  have hF0 : FailInv A.nodes (List.replicate A.nodes.length 0) := by
    intro j hj
    rw [natGetD_replicate]
    exact ⟨hW.len_pos, Or.inl rfl⟩
  have hQ0 : ∀ q ∈ (nth A.nodes 0).outs.map (fun pr => pr.2),
      q < A.nodes.length ∧ 0 ≤ (nth A.nodes q).depth := by
    intro q hq
    simp only [List.mem_map] at hq
    obtain ⟨pr, hpr, hq2⟩ := hq
    subst hq2
    refine ⟨hW.edge_range 0 pr hpr, ?_⟩
    rw [hW.edge_depth 0 pr hpr, hW.root_depth]
    omega
  have hO0 : OutR A.nodes A.nodes := fun i r hr => hW.out_range i r hr
  have := bfsLoop_inv hW A.nodes.length A.nodes
    (List.replicate A.nodes.length 0)
    ((nth A.nodes 0).outs.map (fun pr => pr.2))
    (Pres_refl A.nodes) hF0 hQ0 hO0
  exact this

/-- A shape-preserving arena with in-range outputs inherits all structural
invariants. -/
theorem WF_of_Pres {ns0 ns : List Node} (hW : WF ns0) (hP : Pres ns0 ns)
    (hO : OutR ns0 ns) : WF ns := by
  refine ⟨?_, ?_, ?_, ?_, ?_, ?_, ?_, ?_, ?_⟩
  · rw [hP.1]; exact hW.len_pos
  · rw [(hP.2 0).2.1]; exact hW.root_depth
  · intro i; rw [(hP.2 i).2.1]; exact hW.depth_ge i
  · intro i pr hpr
    rw [(hP.2 i).1] at hpr
    rw [hP.1]
    exact hW.edge_range i pr hpr
  · intro i pr hpr
    rw [(hP.2 i).1] at hpr
    exact hW.edge_lt i pr hpr
  · intro i pr hpr
    rw [(hP.2 i).1] at hpr
    rw [(hP.2 i).2.1, (hP.2 pr.2).2.1]
    exact hW.edge_depth i pr hpr
  · intro i j pr hpr qr hqr heq
    rw [(hP.2 i).1] at hpr
    rw [(hP.2 j).1] at hqr
    exact hW.up i j pr hpr qr hqr heq
  · intro j hj
    rw [hP.1] at hj
    obtain ⟨q, hq, hqlen⟩ := hW.reach j hj
    refine ⟨q, ?_, ?_⟩
    · rw [findN_congr (fun i => (hP.2 i).1) q 0]; exact hq
    · rw [(hP.2 j).2.1]; exact hqlen
  · intro i r hr
    rw [hP.1]
    exact hO i r hr

/-- The failure invariant transports from the pre-build arena to any
shape-preserving arena. -/
theorem FailInv_of_Pres {ns0 ns : List Node} {T : List Nat}
    (hP : Pres ns0 ns) (hF : FailInv ns0 T) : FailInv ns T := by
  intro j hj
  rw [hP.1] at hj
  obtain ⟨h1, h2⟩ := hF j hj
  refine ⟨by rw [hP.1]; exact h1, ?_⟩
  rw [(hP.2 (T.getD j 0)).2.1, (hP.2 j).2.1]
  exact h2

/-- `update_automaton` preserves the structural invariants. -/
theorem WF_update (A : Automaton) (hW : WF A.nodes) :
    WF (A.update_automaton).nodes :=
  WF_of_Pres hW (update_inv A hW).1 (update_inv A hW).2.2

/-- C8: the failure-chain walks always terminate.  The root's goto returns
the root itself for unmatched tokens (never no transition); the failure
table computed by the builder satisfies the depth-decreasing invariant; and
under that invariant the shared failure-chain loop of construction step 3b
and of scanning finds a node with a transition within `nodes.length + 1`
steps, from every in-range state and for every token. -/
theorem c8_failure_chain_terminates (A : Automaton) (hW : WF A.nodes) :
    (∀ e, (A.goto_node 0 e).isSome) ∧
    FailInv (A.update_automaton).nodes (A.update_automaton).fail_table ∧
    (∀ T, FailInv A.nodes T → ∀ f, f < A.nodes.length → ∀ e,
      ∃ f', chaseFail A.nodes T (A.nodes.length + 1) f e = some f' ∧
        (A.goto_node f' e).isSome) := by
  refine ⟨fun e => gotoN_zero A.nodes e, ?_, ?_⟩
  · exact FailInv_of_Pres (update_inv A hW).1 (update_inv A hW).2.1
  · intro T hF f hf e
    obtain ⟨f', h1, h2, _⟩ := chase_success_full hW hF e hf
    exact ⟨f', h1, h2⟩

/-- Witness for `c8_failure_chain_terminates` on the two-pattern automaton
`exDup`. -/
theorem c8_failure_chain_terminates_witness :
    (∀ e, (exDup.goto_node 0 e).isSome) ∧
    FailInv exDup.update_automaton.nodes
      exDup.update_automaton.fail_table ∧
    (∀ T, FailInv exDup.nodes T → ∀ f, f < exDup.nodes.length → ∀ e,
      ∃ f', chaseFail exDup.nodes T (exDup.nodes.length + 1) f e = some f' ∧
        (exDup.goto_node f' e).isSome) :=
  c8_failure_chain_terminates exDup
    (WF_add (Automaton.init.add ["a"] "1") ["b", "a"] "2"
      (WF_add Automaton.init ["a"] "1" WF_init))

theorem mem_insertByStop {m x : Match} :
    ∀ {l : List Match}, x ∈ insertByStop m l → x = m ∨ x ∈ l := by
  intro l
  induction l with
  | nil =>
    intro h
    simp [insertByStop] at h
    exact Or.inl h
  | cons y ys ih =>
    intro h
    simp only [insertByStop] at h
    by_cases hc : m.stop ≤ y.stop
    · rw [if_pos hc] at h
      rcases List.mem_cons.mp h with h | h
      · exact Or.inl h
      · exact Or.inr h
    · rw [if_neg hc] at h
      rcases List.mem_cons.mp h with h | h
      · exact Or.inr (by simp [h])
      · rcases ih h with h | h
        · exact Or.inl h
        · exact Or.inr (by simp [h])

theorem mem_sortByStop {x : Match} :
    ∀ {l : List Match}, x ∈ sortByStop l → x ∈ l := by
  intro l
  induction l with
  | nil => intro h; simpa [sortByStop] using h
  | cons y ys ih =>
    intro h
    simp only [sortByStop] at h
    rcases mem_insertByStop h with h | h
    · simp [h]
    · simp [ih h]

theorem mem_greedyKeep {x : Match} :
    ∀ {l : List Match} {acc : Option Int}, x ∈ greedyKeep acc l → x ∈ l := by
  intro l
  induction l with
  | nil => intro acc h; simpa [greedyKeep] using h
  | cons y ys ih =>
    intro acc h
    cases acc with
    | none =>
      simp only [greedyKeep] at h
      rcases List.mem_cons.mp h with h | h
      · simp [h]
      · simp [ih h]
    | some lastStop =>
      simp only [greedyKeep] at h
      by_cases hc : lastStop ≤ y.start
      · rw [if_pos hc] at h
        rcases List.mem_cons.mp h with h | h
        · simp [h]
        · simp [ih h]
      · rw [if_neg hc] at h
        simp [ih h]

theorem mem_remove_overlaps {x : Match} {l : List Match}
    (h : x ∈ remove_overlaps l) : x ∈ l :=
  mem_sortByStop (mem_greedyKeep h)

/-- Every match the scanner emits at input position `k` is
`(k - depth r, k + 1, value r)` for some member `r` of the output set of the
node reached at position `k`. -/
theorem scanGo_mem {ns : List Node} {T : List Nat} :
    ∀ (t : List String) (nid idx : Nat) {m : Match},
    m ∈ scanGo ns T nid idx t → ∃ k cur r, idx ≤ k ∧ k < idx + t.length ∧
    r ∈ (nth ns cur).outputs ∧
    m = ⟨(k : Int) - (nth ns r).depth, (k : Int) + 1, (nth ns r).value⟩ := by
  intro t
  induction t with
  | nil => intro nid idx m h; simp [scanGo] at h
  | cons e rest ih =>
    intro nid idx m h
    simp only [scanGo, List.mem_append] at h
    rcases h with h | h
    · by_cases hv : (nth ns ((gotoN ns ((chaseFail ns T (ns.length + 1) nid e).getD 0)
          e).getD 0)).value != ""
      · rw [if_pos hv] at h
        simp only [List.mem_map] at h
        obtain ⟨r, hr, hm⟩ := h
        exact ⟨idx, _, r, le_refl _, by simp, hr, hm.symm⟩
      · rw [if_neg hv] at h
        simp at h
    · obtain ⟨k, cur, r, hk1, hk2, hr, hm⟩ := ih _ (idx + 1) h
      exact ⟨k, cur, r, by omega, by simp only [List.length_cons]; omega,
        hr, hm⟩

/-- C7: every match returned by `get_matches` has an exclusive end offset
`k + 1` for the input position `k` where it fired, and its start equals the
end minus the length of the reported pattern: the value is read from a node
reached by a pattern `q` whose length is the node's depth plus one. -/
theorem c7_match_offsets (A : Automaton) (t : List String) (ex : Bool)
    (m : Match) (hW : WF A.nodes) (hm : m ∈ (A.get_matches t ex).2) :
    ∃ k q j, k < t.length ∧ A.find_node q = some j ∧
      A.get_value q = m.value ∧ m.stop = (k : Int) + 1 ∧
      m.start = m.stop - q.length := by
  by_cases hu : A.uptodate
  case pos =>
    have hm' : m ∈ scanGo A.nodes A.fail_table 0 0 t := by
      simp only [Automaton.get_matches, hu, if_true] at hm
      cases ex with
      | false => simpa using hm
      | true => exact mem_remove_overlaps (by simpa using hm)
    obtain ⟨k, cur, r, _, hk2, hr, hmeq⟩ := scanGo_mem t 0 0 hm'
    have hrrange : r < A.nodes.length := hW.out_range cur r hr
    obtain ⟨q, hq, hqlen⟩ := hW.reach r hrrange
    refine ⟨k, q, r, by simpa using hk2, hq, ?_, ?_, ?_⟩
    · simp only [Automaton.get_value]
      show (match findN A.nodes 0 q with
        | some j => (nth A.nodes j).value
        | none => "") = m.value
      rw [hq, hmeq]
    · rw [hmeq]
    · rw [hmeq]
      simp only
      omega
  case neg =>
    have hP := (update_inv A hW).1
    have hO := (update_inv A hW).2.2
    have hm' : m ∈ scanGo (A.update_automaton).nodes
        (A.update_automaton).fail_table 0 0 t := by
      simp only [Automaton.get_matches, hu, if_false] at hm
      cases ex with
      | false => simpa using hm
      | true => exact mem_remove_overlaps (by simpa using hm)
    obtain ⟨k, cur, r, _, hk2, hr, hmeq⟩ := scanGo_mem t 0 0 hm'
    have hrrange : r < A.nodes.length := hO cur r hr
    obtain ⟨q, hq, hqlen⟩ := hW.reach r hrrange
    have hdep : (nth (A.update_automaton).nodes r).depth =
        (nth A.nodes r).depth := (hP.2 r).2.1
    have hval : (nth (A.update_automaton).nodes r).value =
        (nth A.nodes r).value := (hP.2 r).2.2
    refine ⟨k, q, r, by simpa using hk2, hq, ?_, ?_, ?_⟩
    · simp only [Automaton.get_value]
      show (match findN A.nodes 0 q with
        | some j => (nth A.nodes j).value
        | none => "") = m.value
      rw [hq, hmeq, hval]
    · rw [hmeq]
    · rw [hmeq]
      simp only
      rw [hdep]
      omega

/-- Witness for `c7_match_offsets`: the match `(0, 2, "2")` returned on
scanning `"ba"` with the two-pattern automaton `exDup`. -/
theorem c7_match_offsets_witness :
    ∃ k q j, k < (["b", "a"] : List String).length ∧
      exDup.find_node q = some j ∧
      exDup.get_value q = (⟨0, 2, "2"⟩ : Match).value ∧
      (⟨0, 2, "2"⟩ : Match).stop = (k : Int) + 1 ∧
      (⟨0, 2, "2"⟩ : Match).start = (⟨0, 2, "2"⟩ : Match).stop - q.length :=
  c7_match_offsets exDup ["b", "a"] false ⟨0, 2, "2"⟩
    (WF_add (Automaton.init.add ["a"] "1") ["b", "a"] "2"
      (WF_add Automaton.init ["a"] "1" WF_init))
    (by decide)

/-- C10 counterexample: the claim says `find_node(q)`'s existence is
unchanged by `insert(p, v)` for every `q` distinct from `p`; but inserting
`["a","b"]` into the empty automaton creates a node for the proper prefix
`["a"]`, whose existence flips from absent to present. -/
theorem c10_insert_not_frame :
    (["a"] : List String) ≠ ["a", "b"] ∧
    (Automaton.init.find_node ["a"]).isSome = false ∧
    ((Automaton.init.add ["a", "b"] "x").find_node ["a"]).isSome = true := by
  decide

/-- After `add p v`, the value stored at a node reached by an old path
`q ≠ p` is unchanged. -/
theorem add_value_of_ne (A : Automaton) (p q : List String) (v : String)
    (hW : WF A.nodes) (hne : q ≠ p) {j : Nat}
    (hq : findN A.nodes 0 q = some j) :
    (nth (A.add p v).nodes j).value = (nth A.nodes j).value := by
  have hj : j < A.nodes.length :=
    findN_lt hW.edge_range hq hW.len_pos
  have hm := (addLoop_find p A.nodes A.alphabet 0 0 hW.edge_range
    hW.len_pos).2
  have hold := (addLoop_old_node p A.nodes A.alphabet 0 0 hj).1
  by_cases hjm : j = (addLoop A.nodes A.alphabet 0 0 p).2.2
  · exfalso
    have hfound := (add_find_self A p v hW.edge_range hW.len_pos).1
    have hfq : (A.add p v).find_node q =
        some (addLoop A.nodes A.alphabet 0 0 p).2.2 := by
      have h1 : findN (addLoop A.nodes A.alphabet 0 0 p).1 0 q = some j :=
        addLoop_findN_mono hq
      have houts : ∀ i, (nth (A.add p v).nodes i).outs =
          (nth (addLoop A.nodes A.alphabet 0 0 p).1 i).outs := by
        intro i
        by_cases hi : i = (addLoop A.nodes A.alphabet 0 0 p).2.2
        · subst hi
          simp only [Automaton.add, nth_set_self hm]
        · simp only [Automaton.add, nth_set_ne (fun h => hi h.symm)]
      show findN (A.add p v).nodes 0 q = _
      rw [findN_congr houts, h1, hjm]
    exact hne (path_unique (WF_add A p v hW) hfq hfound)
  · show (nth ((addLoop A.nodes A.alphabet 0 0 p).1.set
      (addLoop A.nodes A.alphabet 0 0 p).2.2 _) j).value = _
    rw [nth_set_ne (fun h => hjm h.symm)]
    exact hold

/-- C10 amended: `insert(p, v)` is frame-preserving up to the nodes it must
create: for every pattern `q ≠ p`, `get_value(q)` and `has_pattern(q)` are
unchanged, and `find_node(q)`'s existence is unchanged whenever `q` is not
a proper prefix of `p` (the proper prefixes of `p` are exactly where new
nodes may appear, flipping existence from absent to present). -/
theorem c10_insert_frame (A : Automaton) (p q : List String) (v : String)
    (hW : WF A.nodes) (hne : q ≠ p) :
    (A.add p v).get_value q = A.get_value q ∧
    (A.add p v).has_pattern q = A.has_pattern q ∧
    ((∀ k, k < p.length → q ≠ p.take k) →
      ((A.add p v).find_node q).isSome = (A.find_node q).isSome) := by
  have houts : ∀ i, (nth (A.add p v).nodes i).outs =
      (nth (addLoop A.nodes A.alphabet 0 0 p).1 i).outs := by
    have hm := (addLoop_find p A.nodes A.alphabet 0 0 hW.edge_range
      hW.len_pos).2
    intro i
    by_cases hi : i = (addLoop A.nodes A.alphabet 0 0 p).2.2
    · subst hi
      simp only [Automaton.add, nth_set_self hm]
    · simp only [Automaton.add, nth_set_ne (fun h => hi h.symm)]
  cases hfq : A.find_node q with
  | some j =>
    have hq : findN A.nodes 0 q = some j := hfq
    have hnew : (A.add p v).find_node q = some j := by
      show findN (A.add p v).nodes 0 q = some j
      rw [findN_congr houts]
      exact addLoop_findN_mono hq
    have hval := add_value_of_ne A p q v hW hne hq
    refine ⟨?_, ?_, ?_⟩
    · simp only [Automaton.get_value, hnew, hfq, hval]
    · simp only [Automaton.has_pattern, hnew, hfq, hval]
    · intro hnp
      rw [hnew]
  | none =>
    cases hfq2 : (A.add p v).find_node q with
    | none =>
      refine ⟨?_, ?_, ?_⟩
      · simp only [Automaton.get_value, hfq2, hfq]
      · simp only [Automaton.has_pattern, hfq2, hfq]
      · intro hnp
        rfl
    | some j =>
      have hq2 : findN (addLoop A.nodes A.alphabet 0 0 p).1 0 q = some j := by
        have : findN (A.add p v).nodes 0 q = some j := hfq2
        rwa [findN_congr houts] at this
      have hback := addLoop_findN_back hW.edge_range q p A.alphabet 0 0
        hW.len_pos hq2
      rcases hback with hb | hb
      · exact Option.noConfusion (hb.symm.trans hfq)
      · have hWf : WF (A.add p v).nodes := WF_add A p v hW
        have hjlt : j < (A.add p v).nodes.length :=
          findN_lt hWf.edge_range hfq2 hWf.len_pos
        have hjlt2 : j < (addLoop A.nodes A.alphabet 0 0 p).1.length := by
          have : (A.add p v).nodes.length =
              (addLoop A.nodes A.alphabet 0 0 p).1.length := by
            simp only [Automaton.add, List.length_set]
          omega
        obtain ⟨k, hk1, hkle, hfindk, _⟩ := addLoop_new_reached p A.nodes
          A.alphabet 0 0 hW.edge_range hW.len_pos hb hjlt2
        have hfindk2 : (A.add p v).find_node (p.take k) = some j := by
          show findN (A.add p v).nodes 0 (p.take k) = some j
          rw [findN_congr houts]
          exact hfindk
        have hqtake : q = p.take k := path_unique hWf hfq2 hfindk2
        have hklt : k < p.length := by
          rcases Nat.lt_or_ge k p.length with h | h
          · exact h
          · exfalso
            have : p.take k = p := List.take_of_length_le h
            rw [this] at hqtake
            exact hne hqtake
        have hm := (addLoop_find p A.nodes A.alphabet 0 0 hW.edge_range
          hW.len_pos).2
        have hjm : j ≠ (addLoop A.nodes A.alphabet 0 0 p).2.2 := by
          intro h
          have hfound := (add_find_self A p v hW.edge_range hW.len_pos).1
          rw [← h] at hfound
          exact hne (path_unique hWf hfq2 hfound)
        have hvnew : (nth (A.add p v).nodes j).value = "" := by
          show (nth ((addLoop A.nodes A.alphabet 0 0 p).1.set
            (addLoop A.nodes A.alphabet 0 0 p).2.2 _) j).value = ""
          rw [nth_set_ne (fun h => hjm h.symm)]
          exact (addLoop_new_node p A.nodes A.alphabet 0 0 hb).1
        refine ⟨?_, ?_, ?_⟩
        · simp only [Automaton.get_value, hfq2, hfq, hvnew]
        · simp only [Automaton.has_pattern, hfq2, hfq, hvnew]
          simp
        · intro hnp
          exact absurd hqtake (hnp k hklt)

/-- Witness for `c10_insert_frame`: inserting `["a","b"]` into the empty
automaton leaves the unrelated pattern `["c"]` untouched. -/
theorem c10_insert_frame_witness :
    (Automaton.init.add ["a", "b"] "x").get_value ["c"] =
      Automaton.init.get_value ["c"] ∧
    (Automaton.init.add ["a", "b"] "x").has_pattern ["c"] =
      Automaton.init.has_pattern ["c"] ∧
    ((Automaton.init.add ["a", "b"] "x").find_node ["c"]).isSome =
      (Automaton.init.find_node ["c"]).isSome :=
  ⟨(c10_insert_frame Automaton.init ["a", "b"] ["c"] "x" WF_init
      (by decide)).1,
   (c10_insert_frame Automaton.init ["a", "b"] ["c"] "x" WF_init
      (by decide)).2.1,
   (c10_insert_frame Automaton.init ["a", "b"] ["c"] "x" WF_init
      (by decide)).2.2 (by decide)⟩

end ACA
